import Mathlib

/-!
Verification development for the Saga timeline-document tool.

The definitions below are a shallow embedding of the program's data model
and operations (src/events.rs, src/edit.rs, src/saga.rs).  Machine floats
(f64) are modelled as exact rationals: every float operation the embedded
code performs (comparison with 0, add, mul, sub, div, max) is used by the
program only in ways where exact arithmetic and IEEE arithmetic agree on
the properties stated, and the properties verified below are structural
rather than about rounding.  Machine integers (i64, usize) are modelled as Int
and Nat, with two's-complement wrapping made explicit at the one place the
program can underflow (the 1-based path decrement in Node.query).

chrono's NaiveDateTime is modelled by the structure Dt below: a civil
timestamp at millisecond granularity (the program only ever constructs
values at millisecond or coarser precision, via parsing with the format
string "%d/%m/%Y %H:%M" or via from_timestamp_millis).  The calendar
conversions use the standard civil-from-days / days-from-civil algorithms,
which agree with chrono's proleptic Gregorian calendar.
-/

/-- Character code of a decimal digit. -/
def digitChar (n : Nat) : Char := Char.ofNat (48 + n)

/-- Test for a decimal digit character. -/
def isDig (c : Char) : Bool := 48 ≤ c.toNat && c.toNat ≤ 57

/-- Value of a decimal digit character. -/
def digVal (c : Char) : Nat := c.toNat - 48

/-- ASCII/Unicode whitespace test, restricted to the characters the
program's inputs can contain. -/
def isWsChar (c : Char) : Bool := c = ' ' || c = '\t' || c = '\n' || c = '\r'

/-- Two-digit zero-padded decimal rendering, as chrono's %d, %m, %H, %M
produce for values below 100. -/
def pad2c (n : Nat) : List Char := [digitChar (n / 10), digitChar (n % 10)]

/-- Four-digit zero-padded decimal rendering, as chrono's %Y produces for
years 0 through 9999. -/
def pad4c (n : Nat) : List Char :=
  [digitChar (n / 1000), digitChar (n / 100 % 10), digitChar (n / 10 % 10), digitChar (n % 10)]

/-- Decimal digits of a natural number, most significant first.  Only used
to render years outside 0..9999, a range the program never produces. -/
def natChars (n : Nat) : List Char :=
  if _h : n < 10 then [digitChar n]
  else natChars (n / 10) ++ [digitChar (n % 10)]
decreasing_by exact Nat.div_lt_self (by omega) (by omega)

/-- Proleptic Gregorian leap-year test. -/
def isLeapYear (y : Int) : Bool := (y % 4 == 0 && y % 100 != 0) || (y % 400 == 0)

/-- Number of days in a month of the proleptic Gregorian calendar. -/
def daysInMonth (y : Int) (m : Nat) : Nat :=
  if m = 2 then (if isLeapYear y then 29 else 28)
  else if m = 4 ∨ m = 6 ∨ m = 9 ∨ m = 11 then 30 else 31

/-- Civil date from days since the epoch 1970-01-01 (standard algorithm,
matching chrono's calendar). -/
def civilFromDays (z0 : Int) : Int × Nat × Nat :=
  let z := z0 + 719468
  let era := z.fdiv 146097
  let doe := (z - era * 146097).toNat
  let yoe := (doe - doe / 1460 + doe / 36524 - doe / 146096) / 365
  let y : Int := (yoe : Int) + era * 400
  let doy := doe - (365 * yoe + yoe / 4 - yoe / 100)
  let mp := (5 * doy + 2) / 153
  let d := doy - (153 * mp + 2) / 5 + 1
  let m := if mp < 10 then mp + 3 else mp - 9
  (if m ≤ 2 then y + 1 else y, m, d)

/-- Days since the epoch 1970-01-01 of a civil date (standard algorithm,
matching chrono's calendar). -/
def daysFromCivil (y0 : Int) (m d : Nat) : Int :=
  let y := if m ≤ 2 then y0 - 1 else y0
  let era := y.fdiv 400
  let yoe := (y - era * 400).toNat
  let doy := (153 * (if 2 < m then m - 3 else m + 9) + 2) / 5 + d - 1
  let doe := yoe * 365 + yoe / 4 - yoe / 100 + doy
  era * 146097 + (doe : Int) - 719468

/-- Model of chrono::NaiveDateTime at millisecond granularity (the source
type Dt).  Equality of NaiveDateTime values is equality of all fields. -/
structure Dt where
  year : Int
  month : Nat
  day : Nat
  hour : Nat
  minute : Nat
  second : Nat
  milli : Nat
deriving DecidableEq

/-- Seconds since the epoch, as chrono's NaiveDateTime::timestamp (floors
away the sub-second part). -/
def Dt.timestamp (dt : Dt) : Int :=
  daysFromCivil dt.year dt.month dt.day * 86400
    + (dt.hour : Int) * 3600 + (dt.minute : Int) * 60 + (dt.second : Int)

/-- Model of NaiveDateTime::from_timestamp_millis: none outside chrono's
representable range (years -262144 through 262143). -/
def fromTimestampMillis (ms : Int) : Option Dt :=
  let days := ms.fdiv 86400000
  let rem := (ms - days * 86400000).toNat
  let c := civilFromDays days
  if c.1 < -262144 ∨ 262143 < c.1 then none
  else some ⟨c.1, c.2.1, c.2.2, rem / 3600000, rem / 60000 % 60, rem / 1000 % 60, rem % 1000⟩

/-- The source struct Dates: one instant, or a start/end pair. -/
structure Dates where
  start : Dt
  end_ : Option Dt
deriving DecidableEq

/-- Model of the chrono parse error carried by the program (its contents
are never inspected by the code under study). -/
inductive DtParseError where
  | mk : DtParseError
deriving DecidableEq

/-- Dates::from: converts a pair of timestamps (interpreted by the source
as milliseconds) into a Dates value.  The source unwraps the start
conversion; the none result models that panic. -/
def Dates.fromRange (range : Int × Int) : Option Dates :=
  match fromTimestampMillis range.1 with
  | none => none
  | some s => some ⟨s, fromTimestampMillis range.2⟩

/-- Dates::stamps: epoch-second timestamps of self. -/
def Dates.stamps (d : Dates) : Int × Option Int :=
  (d.start.timestamp, d.end_.map (·.timestamp))

def i64MAX : Int := 2 ^ 63 - 1

def i64MIN : Int := -(2 ^ 63)

/-- Dates::expand_range, translated clause for clause from the source. -/
def Dates.expand_range (d : Dates) (range : Int × Int) : Int × Int :=
  let mn := range.1
  let mx := range.2
  let s := d.stamps.1
  let e := d.stamps.2
  (min (e.getD i64MAX) (min mn s), max (e.getD i64MIN) (max mx s))

/-- Rendering of one instant with the format string "%d/%m/%Y %H:%M".  For
years 0..9999 chrono zero-pads to four digits; other years (which the
program never produces and the theorems below exclude) are rendered with
an explicit sign. -/
def yearChars (y : Int) : List Char :=
  if 0 ≤ y ∧ y ≤ 9999 then pad4c y.toNat
  else if y < 0 then '-' :: natChars y.natAbs else '+' :: natChars y.toNat

/-- Character-level rendering of a Dt under FORMAT. -/
def fmtDt (dt : Dt) : List Char :=
  pad2c dt.day ++ '/' :: (pad2c dt.month ++ '/' :: (yearChars dt.year
    ++ ' ' :: (pad2c dt.hour ++ ':' :: pad2c dt.minute)))

/-- Display for Dates: the start instant, then optionally " - " and the
end instant, exactly as the source's Display implementation. -/
def fmtDates (d : Dates) : List Char :=
  fmtDt d.start ++ (match d.end_ with
    | some e => ' ' :: '-' :: ' ' :: fmtDt e
    | none => [])

/-- String form of a Dates value (impl Display for Dates). -/
def Dates.format (d : Dates) : String := String.mk (fmtDates d)

/-- Consume one expected literal character, as chrono does for the '/' and
':' literals of FORMAT. -/
def expectChar (c : Char) : List Char → Option (List Char)
  | x :: rest => if x = c then some rest else none
  | [] => none

/-- Greedily consume up to `fuel` further digit characters, accumulating
their value. -/
def takeDigits : Nat → List Char → Nat → Nat × List Char
  | 0, cs, acc => (acc, cs)
  | _ + 1, [], acc => (acc, [])
  | fuel + 1, c :: cs, acc =>
    if isDig c then takeDigits fuel cs (acc * 10 + digVal c) else (acc, c :: cs)

/-- Parse a decimal number of 1 to `max` digits, greedily, as chrono's
numeric items do. -/
def parseNum (max : Nat) : List Char → Option (Nat × List Char)
  | c :: cs => if isDig c then some (takeDigits (max - 1) cs (digVal c)) else none
  | [] => none

/-- Parse a year for %Y: an optional sign then up to four digits. -/
def parseYearNum (cs : List Char) : Option (Int × List Char) :=
  match cs with
  | [] => none
  | c :: rest =>
    if c = '-' then (parseNum 4 rest).map (fun p => (-(p.1 : Int), p.2))
    else if c = '+' then (parseNum 4 rest).map (fun p => ((p.1 : Int), p.2))
    else (parseNum 4 cs).map (fun p => ((p.1 : Int), p.2))

/-- Whitespace consumed by the space item of FORMAT (zero or more). -/
def dropWs (cs : List Char) : List Char := cs.dropWhile isWsChar

/-- Model of NaiveDateTime::parse_from_str with FORMAT: day, '/', month,
'/', year, whitespace, hour, ':', minute, end of input; then calendar
validation as chrono's field resolution performs it. -/
def parseDtChars (cs0 : List Char) : Option Dt :=
  match parseNum 2 cs0 with
  | none => none
  | some (d, cs1) =>
  match expectChar '/' cs1 with
  | none => none
  | some cs2 =>
  match parseNum 2 cs2 with
  | none => none
  | some (m, cs3) =>
  match expectChar '/' cs3 with
  | none => none
  | some cs4 =>
  match parseYearNum cs4 with
  | none => none
  | some (y, cs5) =>
  match parseNum 2 (dropWs cs5) with
  | none => none
  | some (h, cs6) =>
  match expectChar ':' cs6 with
  | none => none
  | some cs7 =>
  match parseNum 2 cs7 with
  | none => none
  | some (mi, cs8) =>
  if cs8 = [] ∧ 1 ≤ m ∧ m ≤ 12 ∧ 1 ≤ d ∧ d ≤ daysInMonth y m ∧ h < 24 ∧ mi < 60
      ∧ -262144 ≤ y ∧ y ≤ 262143 then
    some ⟨y, m, d, h, mi, 0, 0⟩
  else none

/-- Split a character list at the first '-', as str::split_once does. -/
def splitFirstDash : List Char → Option (List Char × List Char)
  | [] => none
  | c :: cs =>
    if c = '-' then some ([], cs)
    else (splitFirstDash cs).map (fun p => (c :: p.1, p.2))

/-- Remove leading and trailing whitespace, as str::trim. -/
def trimChars (cs : List Char) : List Char :=
  ((cs.dropWhile isWsChar).reverse.dropWhile isWsChar).reverse

/-- FromStr for Dates, translated clause for clause from the source: if the
string contains a '-', split once there, trim both halves and parse each
as an instant; otherwise parse the whole (untrimmed) string. -/
def Dates.from_str (s : String) : Except DtParseError Dates :=
  match splitFirstDash s.data with
  | some (l, r) =>
    match parseDtChars (trimChars l), parseDtChars (trimChars r) with
    | some a, some b => .ok ⟨a, some b⟩
    | _, _ => .error .mk
  | none =>
    match parseDtChars s.data with
    | some a => .ok ⟨a, none⟩
    | none => .error .mk

/-- RGB color (src/saga.rs); u8 components modelled as Nat. -/
structure Color where
  r : Nat
  g : Nat
  b : Nat
deriving DecidableEq

def Colors := List Color
deriving instance DecidableEq for Colors

/-- Graph draw style (src/events.rs). -/
inductive GraphType where
  | Scatter : GraphType
  | Line : GraphType
  | LineArea : GraphType

/-- Reserved graph data attached to a Node (src/events.rs). -/
structure Graph where
  data : List (Dt × Rat)
  y_scale : Rat
  color : Color
  draw_type : GraphType

/-- The source struct Event: a named, dated leaf with descriptions. -/
structure Event where
  name : String
  descriptions : List String
  datetime : Dates
deriving DecidableEq

mutual

/-- The source enum Value: either a leaf Event or a nested Node. -/
inductive Value where
  | event : Event → Value
  | node : Node → Value

/-- The source struct Node; field order follows the Rust declaration. -/
inductive Node where
  | mk : (children : List Value) → (name : Option String) →
      (style_override : Option String) → (color_override : Option Color) →
      (offset : Rat) → (y_scale : Rat) → (line : Option (Option Rat)) →
      (graphs : List Graph) → Node

end

def Node.children : Node → List Value
  | .mk c _ _ _ _ _ _ _ => c

def Node.name : Node → Option String
  | .mk _ n _ _ _ _ _ _ => n

def Node.style_override : Node → Option String
  | .mk _ _ s _ _ _ _ _ => s

def Node.color_override : Node → Option Color
  | .mk _ _ _ c _ _ _ _ => c

def Node.offset : Node → Rat
  | .mk _ _ _ _ o _ _ _ => o

def Node.y_scale : Node → Rat
  | .mk _ _ _ _ _ y _ _ => y

def Node.line : Node → Option (Option Rat)
  | .mk _ _ _ _ _ _ l _ => l

def Node.graphs : Node → List Graph
  | .mk _ _ _ _ _ _ _ g => g

/-- Node::new — defaults for everything except name and children. -/
def Node.new (name : Option String) (children : List Value) : Node :=
  .mk children name none none 0 1 none []

/-- Node::from_vec — wraps a list of Values into one new Node. -/
def Node.from_vec (list : List Value) : Node :=
  .mk list none none none 0 1 none []

/-- Node::with_line — builder setter for the line field. -/
def Node.with_line (n : Node) (line : Option Rat) : Node :=
  .mk n.children n.name n.style_override n.color_override n.offset n.y_scale (some line) n.graphs

def Node.set_name (n : Node) (name : Option String) : Node :=
  .mk n.children name n.style_override n.color_override n.offset n.y_scale n.line n.graphs

def Node.set_offset (n : Node) (y : Rat) : Node :=
  .mk n.children n.name n.style_override n.color_override y n.y_scale n.line n.graphs

def Node.set_scale (n : Node) (y : Rat) : Node :=
  .mk n.children n.name n.style_override n.color_override n.offset y n.line n.graphs

def Node.set_line (n : Node) (line : Option (Option Rat)) : Node :=
  .mk n.children n.name n.style_override n.color_override n.offset n.y_scale line n.graphs

def Node.push (n : Node) (v : Value) : Node :=
  .mk (n.children ++ [v]) n.name n.style_override n.color_override n.offset n.y_scale n.line n.graphs

/-- The horizontal-rule record produced by Node::lines. -/
structure Line where
  start : Rat
  end_ : Rat
  interval : Option Rat
  y : Rat
deriving DecidableEq

/-- PathFail — produced when following a path down the tree fails; carries
the remaining path and its length, as the source constructs it. -/
structure PathFail where
  path : List Nat
  at_ : Nat
deriving DecidableEq

/-- The Query enum: a view into an addressed Node or Event. -/
inductive Query where
  | node : Node → Query
  | event : Event → Query

def USIZE : Nat := 2 ^ 64

/-- Two's-complement usize decrement, as the release-mode semantics of the
source's `path[0]-1` (the user-facing indices are 1-based). -/
def usizeSub1 (i : Nat) : Nat := (i + (USIZE - 1)) % USIZE

/-- Node::query, translated clause for clause: empty path addresses self;
otherwise index the children with the wrapped decrement and recurse. -/
def Node.query : Node → List Nat → Except PathFail Query
  | n, [] => .ok (.node n)
  | n, i :: rest =>
    match n.children.get? (usizeSub1 i) with
    | some (.node m) => m.query rest
    | some (.event e) =>
      if rest.isEmpty then .ok (.event e)
      else .error ⟨i :: rest, (i :: rest).length⟩
    | none => .error ⟨i :: rest, (i :: rest).length⟩

mutual

/-- Node::iter_nodes — all Nodes contained in self, preorder. -/
def Node.iter_nodes : Node → List Node
  | .mk c nm so co off ys ln gr => .mk c nm so co off ys ln gr :: iterNodesList c

def iterNodesList : List Value → List Node
  | [] => []
  | .event _ :: rest => iterNodesList rest
  | .node m :: rest => m.iter_nodes ++ iterNodesList rest

end

mutual

/-- Node::iter_events — all Events contained in self, preorder. -/
def Node.iter_events : Node → List Event
  | .mk c _ _ _ _ _ _ _ => iterEventsList c

def iterEventsList : List Value → List Event
  | [] => []
  | .event e :: rest => e :: iterEventsList rest
  | .node m :: rest => m.iter_events ++ iterEventsList rest

end

mutual

/-- Node::depth_iter — one depth value per contained Node, preorder. -/
def Node.depth_iter : Node → Nat → List Nat
  | .mk c _ _ _ _ _ _ _, depth => depth :: depthList c (depth + 1)

def depthList : List Value → Nat → List Nat
  | [], _ => []
  | .event _ :: rest, depth => depthList rest depth
  | .node m :: rest, depth => m.depth_iter depth ++ depthList rest depth

end

/-- Node::depth — depth stream starting at zero. -/
def Node.depth (n : Node) : List Nat := n.depth_iter 0

mutual

/-- Node::transform_iter — one (offset, scale) pair per contained Node, in
preorder; the pair for self is the inherited one, and the recursion into
child nodes uses pair.0 * scale and pair.1 where
pair = (self.offset + offset, self.y_scale * scale), as in the source. -/
def Node.transform_iter : Node → Rat → Rat → List (Rat × Rat)
  | .mk c _ _ _ off ys _ _, offset, scale =>
    (offset, scale) :: transformList c ((off + offset) * scale) (ys * scale)

def transformList : List Value → Rat → Rat → List (Rat × Rat)
  | [], _, _ => []
  | .event _ :: rest, o, s => transformList rest o s
  | .node m :: rest, o, s => m.transform_iter o s ++ transformList rest o s

end

/-- Node::is_empty — true when self contains no Events. -/
def Node.is_empty (n : Node) : Bool := n.iter_events.isEmpty

/-- Node::range — fold Dates::expand_range over the datetimes of all
events, starting from (i64::MAX, i64::MIN). -/
def Node.range (n : Node) : Int × Int :=
  (n.iter_events.map (·.datetime)).foldl (fun range dt => dt.expand_range range) (i64MAX, i64MIN)

/-- Node::location — the location of this Node's time range within the
given range.  As the source is written, the numerators reuse the given
range itself, so the result is constant. -/
def Node.location (_n : Node) (range : Int × Int) : Option (Rat × Rat) :=
  let start := range.1
  let end_ := range.2
  let width : Rat := ((end_ - start : Int) : Rat)
  if width = 0 then none
  else
    some (((start : Rat) - (start : Rat)) / width, ((end_ : Rat) - (start : Rat)) / width)

/-- Node::lines — one Line per contained Node whose line field is present
and whose location is defined; y is offset * scale * depth from the zipped
streams. -/
def Node.lines (n : Node) (grand_range : Int × Int) : List Line :=
  (((n.iter_nodes.zip (n.transform_iter 0 1)).zip n.depth).map
    (fun x =>
      match x.1.1.line, x.1.1.location grand_range with
      | some int, some (a, b) => some ⟨a, b, int, x.1.2.1 * x.1.2.2 * (x.2 : Rat)⟩
      | _, _ => none)).filterMap id

/-- ValueType — which kind of tree value a command was applied to. -/
inductive ValueType where
  | Node : ValueType
  | Event : ValueType
deriving DecidableEq

/-- The command algebra of src/edit.rs. -/
inductive Command where
  | Exit : Command
  | Help : Command
  | NameSub : Command
  | NameEdit : Option String → Command
  | DescAdd : Option String → Command
  | DescSub : Nat → Command
  | DescEdit : Nat → Option String → Command
  | LineEdit : Option (Option Rat) → Command
  | Offset : Rat → Command
  | Scale : Rat → Command
  | DateEdit : Dates → Command
deriving DecidableEq

/-- Evaluation errors of src/edit.rs. -/
inductive EvalError where
  | NotApplicable : ValueType → Command → EvalError
  | IndexError : Nat → Nat → EvalError
deriving DecidableEq

abbrev EvalResult := Except EvalError Unit

deriving instance DecidableEq for Except

/-- Parse errors of src/edit.rs.  The scalar-parse variants carry the
offending token in place of the std library's error value, whose contents
the program never inspects. -/
inductive ParseError where
  | MissingCommand : ParseError
  | MissingArgument : ParseError
  | ExtraArgument : String → String → ParseError
  | UnknownCommand : String → Option String → ParseError
  | NotAFloat : String → ParseError
  | NotAInt : String → ParseError
  | NotADT : DtParseError → ParseError
deriving DecidableEq

/-- The head-token modifier of the command DSL (the source names it Mod;
renamed here to avoid the Lean builtin of that name). -/
inductive Modif where
  | Add : Modif
  | Sub : Modif
  | Edit : Modif
deriving DecidableEq

/-- get_mod — strips a leading '+' or '-' from the head token. -/
def get_mod (word : String) : Modif × String :=
  match word.data with
  | '+' :: rest => (Modif.Add, String.mk rest)
  | '-' :: rest => (Modif.Sub, String.mk rest)
  | _ => (Modif.Edit, word)

/-- Event::new. -/
def Event.new (name : String) (dt : Dates) : Event := ⟨name, [], dt⟩

def Event.set_name (e : Event) (new : String) : Event :=
  ⟨new, e.descriptions, e.datetime⟩

def Event.set_dates (e : Event) (new : Dates) : Event :=
  ⟨e.name, e.descriptions, new⟩

def Event.add_description (e : Event) (new : String) : Event :=
  ⟨e.name, e.descriptions ++ [new], e.datetime⟩

/-- Event::change_description — replaces the description at the given
index after an explicit bounds check; the event is returned unchanged on
failure (the source mutates in place only inside the true branch). -/
def Event.change_description (e : Event) (index : Nat) (new : String) : EvalResult × Event :=
  if index < e.descriptions.length then
    (.ok (), ⟨e.name, e.descriptions.set index new, e.datetime⟩)
  else
    (.error (.IndexError index e.descriptions.length), e)

/-- Event::delete_description — removes the description at the given index
after an explicit bounds check. -/
def Event.delete_description (e : Event) (index : Nat) : EvalResult × Event :=
  if index < e.descriptions.length then
    (.ok (), ⟨e.name, e.descriptions.eraseIdx index, e.datetime⟩)
  else
    (.error (.IndexError index e.descriptions.length), e)

/-- Command::eval_node, translated arm for arm; since the embedding is
pure, the (possibly updated) node is returned next to the result. -/
def Command.eval_node (c : Command) (node : Node) : EvalResult × Node :=
  match c with
  | .Exit | .Help | .DateEdit _ => (.error (.NotApplicable .Event c), node)
  | .NameSub => (.ok (), node.set_name none)
  | .NameEdit opt_name => (.ok (), node.set_name opt_name)
  | .LineEdit opt_opt => (.ok (), node.set_line opt_opt)
  | .Offset n => (.ok (), node.set_offset n)
  | .Scale n => (.ok (), node.set_scale n)
  | .DescAdd _ | .DescSub _ | .DescEdit _ _ => (.error (.NotApplicable .Node c), node)

/-- Command::eval_event, translated arm for arm. -/
def Command.eval_event (c : Command) (event : Event) : EvalResult × Event :=
  match c with
  | .Exit | .Help | .Offset _ | .Scale _ | .NameSub | .LineEdit _ =>
    (.error (.NotApplicable .Event c), event)
  | .NameEdit opt_name =>
    match opt_name with
    | some name => (.ok (), event.set_name name)
    | none => (.error (.NotApplicable .Node c), event)
  | .DescAdd opt_str =>
    match opt_str with
    | some s => (.ok (), event.add_description s)
    | none => (.ok (), event)
  | .DescSub index => event.delete_description index
  | .DescEdit index opt_str =>
    match opt_str with
    | some desc => event.change_description index desc
    | none => (.ok (), event)
  | .DateEdit dates => (.ok (), event.set_dates dates)

/-- Command::eval_query — dispatches on the query variant. -/
def Command.eval_query (c : Command) (query : Query) : EvalResult × Query :=
  match query with
  | .node n => let r := c.eval_node n; (r.1, .node r.2)
  | .event e => let r := c.eval_event e; (r.1, .event r.2)

/-- Tokenization by ASCII whitespace (str::split_ascii_whitespace). -/
def splitAsciiWs (s : String) : List String :=
  ((s.data.splitOnP isWsChar).map String.mk).filter (fun t => t ≠ "")

/-- The tail helper of Command::from_str: remaining tokens joined by
single spaces, or none when the stream is exhausted. -/
def tailJoin (toks : List String) : Option String :=
  match toks with
  | [] => none
  | _ => some (String.intercalate " " toks)

/-- Model of str::parse::<u64-sized usize>: optional '+' sign then decimal
digits, rejecting overflow. -/
def parseUsize (s : String) : Option Nat :=
  let core : List Char → Option Nat := fun cs =>
    if cs = [] ∨ ¬ cs.all (fun c => isDig c) then none
    else
      let v := cs.foldl (fun acc c => acc * 10 + digVal c) 0
      if v < USIZE then some v else none
  match s.data with
  | '+' :: rest => core rest
  | cs => core cs

/-- Model of str::parse::<f64> on the finite decimal grammar
(sign? digits+ ('.' digits*)? (exponent)? or sign? '.' digits+
(exponent)?), with the exact rational value.  The special forms inf and
NaN, which none of the properties below exercises, are outside the model
and rejected. -/
def parseF64 (s : String) : Option Rat :=
  let digitsVal : List Char → Rat := fun cs => ((cs.foldl (fun acc c => acc * 10 + digVal c) 0 : Nat) : Rat)
  let fracVal : List Char → Rat := fun cs => digitsVal cs / ((10 : Rat) ^ cs.length)
  let expPart : List Char → Option Int := fun cs =>
    match cs with
    | [] => none
    | e :: rest =>
      if e = 'e' ∨ e = 'E' then
        match rest with
        | '+' :: ds => if ds ≠ [] ∧ ds.all (fun c => isDig c) then some ((ds.foldl (fun acc c => acc * 10 + digVal c) 0 : Nat) : Int) else none
        | '-' :: ds => if ds ≠ [] ∧ ds.all (fun c => isDig c) then some (-((ds.foldl (fun acc c => acc * 10 + digVal c) 0 : Nat) : Int)) else none
        | ds => if ds ≠ [] ∧ ds.all (fun c => isDig c) then some ((ds.foldl (fun acc c => acc * 10 + digVal c) 0 : Nat) : Int) else none
      else none
  let sig : List Char → Option Rat := fun cs =>
    let intDigits := cs.takeWhile (fun c => isDig c)
    let rest := cs.dropWhile (fun c => isDig c)
    match intDigits, rest with
    | [], '.' :: rest2 =>
      let fds := rest2.takeWhile (fun c => isDig c)
      let rest3 := rest2.dropWhile (fun c => isDig c)
      if fds = [] then none
      else match rest3 with
        | [] => some (fracVal fds)
        | _ => (expPart rest3).map (fun ex => fracVal fds * (10 : Rat) ^ (ex : Int))
    | [], _ => none
    | ids, [] => some (digitsVal ids)
    | ids, '.' :: rest2 =>
      let fds := rest2.takeWhile (fun c => isDig c)
      let rest3 := rest2.dropWhile (fun c => isDig c)
      match rest3 with
      | [] => some (digitsVal ids + fracVal fds)
      | _ => (expPart rest3).map (fun ex => (digitsVal ids + fracVal fds) * (10 : Rat) ^ (ex : Int))
    | ids, rest2 => (expPart rest2).map (fun ex => digitsVal ids * (10 : Rat) ^ (ex : Int))
  match s.data with
  | '+' :: cs => sig cs
  | '-' :: cs => (sig cs).map (fun v => -v)
  | cs => sig cs

/-- FromStr for Command.  The outer Except models the early returns that
the source performs with the question-mark operator (these skip the final
leftover-token check); the inner pair is the `result` value of the source
next to the tokens still unconsumed when the match arm finished. -/
def commandArm (head : String) (modifier : Modif) (toks : List String) :
    Except ParseError (Except ParseError Command × List String) :=
  match head, modifier with
  | "exit", _ => .ok (.ok .Exit, toks)
  | "help", _ => .ok (.ok .Help, toks)
  | "date", Modif.Edit =>
    match tailJoin toks with
    | none => .error .MissingArgument
    | some s =>
      match Dates.from_str s with
      | .error e => .error (.NotADT e)
      | .ok dt => .ok (.ok (.DateEdit dt), [])
  | "name", Modif.Sub => .ok (.ok .NameSub, toks)
  | "name", _ => .ok (.ok (.NameEdit (tailJoin toks)), [])
  | "desc", Modif.Sub =>
    match toks with
    | [] => .error .MissingArgument
    | t :: rest =>
      match parseUsize t with
      | none => .error (.NotAInt t)
      | some n => .ok (.ok (.DescSub n), rest)
  | "desc", Modif.Add => .ok (.ok (.DescAdd (tailJoin toks)), [])
  | "desc", Modif.Edit =>
    match toks with
    | [] => .error .MissingArgument
    | t :: rest =>
      match parseUsize t with
      | none => .error (.NotAInt t)
      | some index => .ok (.ok (.DescEdit index (tailJoin rest)), [])
  | "line", Modif.Sub => .ok (.ok (.LineEdit none), toks)
  | "line", _ =>
    match toks with
    | [] => .ok (.ok (.LineEdit (some none)), [])
    | t :: rest =>
      match parseF64 t with
      | none => .error (.NotAFloat t)
      | some v => .ok (.ok (.LineEdit (some (some v))), rest)
  | "offset", Modif.Sub => .ok (.ok (.Offset 0), toks)
  | "offset", _ =>
    match toks with
    | [] => .error .MissingArgument
    | t :: rest =>
      match parseF64 t with
      | none => .error (.NotAFloat t)
      | some v => .ok (.ok (.Offset v), rest)
  | "scale", Modif.Sub => .ok (.ok (.Scale 1), toks)
  | "scale", _ =>
    match toks with
    | [] => .error .MissingArgument
    | t :: rest =>
      match parseF64 t with
      | none => .error (.NotAFloat t)
      | some v => .ok (.ok (.Scale v), rest)
  | unknown, _ => .ok (.error (.UnknownCommand unknown (tailJoin toks)), [])

/-- Command::from_str: tokenize, strip the modifier, run the arm for the
head, then fail with ExtraArgument when tokens are left unconsumed. -/
def Command.from_str (query : String) : Except ParseError Command :=
  match splitAsciiWs query with
  | [] => .error .MissingCommand
  | t0 :: toks =>
    let m := get_mod t0
    match commandArm m.2 m.1 toks with
    | .error e => .error e
    | .ok (result, leftover) =>
      match leftover with
      | [] => result
      | _ => .error (.ExtraArgument m.2 (String.intercalate " " leftover))

/-- The std HashMap of color schemes, modelled as an association list with
distinct keys; iteration order of the model is list order (the HashMap's
drain order is arbitrary, which is observationally irrelevant here because
keys within one map are distinct). -/
abbrev SchemeMap := List (String × Colors)

/-- HashMap::insert — replace the value at an existing key, else append. -/
def hmInsert (m : SchemeMap) (k : String) (v : Colors) : SchemeMap :=
  if (List.any m (fun kv => kv.1 = k)) then
    List.map (fun kv => if kv.1 = k then (k, v) else kv) m
  else m ++ [(k, v)]

/-- HashMap::get — the value at a key. -/
def hmGet (m : SchemeMap) (k : String) : Option Colors :=
  match List.find? (fun kv => kv.1 = k) m with
  | some kv => some kv.2
  | none => none

/-- The root document wrapper of src/saga.rs. -/
structure SagaDoc where
  x : Rat
  y : Rat
  padding : Rat
  color_schemes : SchemeMap
  data : Node

/-- SagaDoc::blank — default canvas and an empty root. -/
def SagaDoc.blank : SagaDoc :=
  ⟨1920, 1080, 0, [], Node.from_vec []⟩

/-- The loop body of SagaDoc::catenate: component maxima, inserting each
of the item's color schemes, and the data field left untouched (the source
leaves the concatenation as a TODO). -/
def catStep (doc item : SagaDoc) : SagaDoc :=
  ⟨max doc.x item.x, max doc.y item.y, max doc.padding item.padding,
    item.color_schemes.foldl (fun m kv => hmInsert m kv.1 kv.2) doc.color_schemes,
    doc.data⟩

/-- SagaDoc::catenate, translated clause for clause: fold the inputs over
a blank document with the loop body above (the source's for_each over a
mutable accumulator). -/
def SagaDoc.catenate (list : List SagaDoc) : SagaDoc :=
  list.foldl catStep SagaDoc.blank

/-- Later-input-wins union of lookups, written from the spec's sentence
about catenate's color_schemes. -/
def laterWins (r : Option Colors) (x : Option Colors) : Option Colors :=
  match x with
  | some v => some v
  | none => r

/-- The triple stream that SagaDoc::draw walks: the per-event iterator
zipped with the per-node depth and transform iterators, after the two
early-return guards (empty tree, zero-width range).  One drawing primitive
is emitted per element of this stream. -/
def SagaDoc.drawTriples (doc : SagaDoc) : List ((Event × Nat) × (Rat × Rat)) :=
  if doc.data.is_empty then []
  else if (doc.data.range).2 - (doc.data.range).1 = 0 then []
  else (doc.data.iter_events.zip doc.data.depth).zip (doc.data.transform_iter 0 1)

/-- Specification-side path resolution, written from the spec's validity
clauses: the empty path addresses the node itself; a step must be a
1-based index into the children; every non-final step must land on a Node;
the final step may land on a Node or an Event.  Paths violating a clause
resolve to none. -/
def targetQ : Node → List Nat → Option Query
  | n, [] => some (Query.node n)
  | n, i :: rest =>
    if i = 0 then none
    else
      match n.children.get? (i - 1) with
      | some (Value.node m) => targetQ m rest
      | some (Value.event e) => (match rest with | [] => some (Query.event e) | _ => none)
      | none => none

mutual

/-- Every children vector in the tree fits in a usize-indexed Vec, as is
automatic for the Rust values being modelled. -/
def Node.bounded : Node → Bool
  | .mk c _ _ _ _ _ _ _ => decide (c.length < USIZE) && boundedList c

def boundedList : List Value → Bool
  | [] => true
  | .event _ :: rest => boundedList rest
  | .node m :: rest => m.bounded && boundedList rest

end

mutual

/-- Specification-side transform stream, written from the spec's sentence:
one pair per node in preorder; the node itself emits the inherited pair,
and the walk descends into each child node with child-visible offset
(o + self.offset) * s and child-visible scale self.y_scale * s. -/
def transformSpec : Node → Rat → Rat → List (Rat × Rat)
  | .mk c _ _ _ off ys _ _, o, s =>
    (o, s) :: transformSpecList c ((o + off) * s) (ys * s)

def transformSpecList : List Value → Rat → Rat → List (Rat × Rat)
  | [], _, _ => []
  | .event _ :: rest, o, s => transformSpecList rest o s
  | .node m :: rest, o, s => transformSpec m o s ++ transformSpecList rest o s

end

/-- Specification-side expand_range, written from the spec's sentence:
the new bounds are min(lo, start, end?) and max(hi, start, end?), where an
absent end neither tightens lo nor raises hi. -/
def expandSpec (d : Dates) (range : Int × Int) : Int × Int :=
  match d.stamps.2 with
  | none => (min range.1 d.stamps.1, max range.2 d.stamps.1)
  | some e => (min range.1 (min d.stamps.1 e), max range.2 (max d.stamps.1 e))

/-- Concrete fixture: midnight instant of a given civil day. -/
def exDt (y : Int) (mo d : Nat) : Dt := ⟨y, mo, d, 0, 0, 0, 0⟩

def exDates1 : Dates := ⟨exDt 1970 1 1, none⟩

def exDates2 : Dates := ⟨exDt 1970 1 2, none⟩

def exEventA : Event := ⟨"A", [], exDates1⟩

def exEventB : Event := ⟨"B", [], exDates2⟩

/-- Fixture for the render-pipeline property: a document whose root node holds
two event leaves with distinct dates. -/
def c4doc : SagaDoc := ⟨1920, 1080, 0, [], Node.from_vec [.event exEventA, .event exEventB]⟩

/-- Fixture for the line-location property: a root with a line setting and two
dated events. -/
def c9node : Node := (Node.from_vec [.event exEventA, .event exEventB]).with_line (some 5)

/-- Fixture for the catenate property: a small document with non-default
canvas fields and one child under the root. -/
def c3doc : SagaDoc := ⟨1, 1, 1, [], Node.from_vec [.event exEventA]⟩

/-- Fixture tree for the path-query property. -/
def c1tree : Node := Node.from_vec [.event exEventA, .node (Node.from_vec [.event exEventB])]

/-- Fixture for the date round-trip property: a producible range value. -/
def c7good : Dates := ⟨⟨1997, 12, 8, 0, 0, 0, 0⟩, some ⟨1997, 12, 26, 0, 0, 0, 0⟩⟩

/-- A Dates value produced by Dates::from (from_timestamp_millis) whose
start carries 30 seconds, below the one-minute resolution of FORMAT. -/
def c7bad : Dates := ⟨⟨1970, 1, 1, 0, 0, 30, 0⟩, some ⟨1970, 1, 1, 0, 1, 0, 0⟩⟩

/-- Validity and alignment conditions under which a Dt survives the
minute-resolution canonical format: in-range calendar fields, a year the
four-digit form covers, and no sub-minute part. -/
def Dt.roundable (dt : Dt) : Prop :=
  0 ≤ dt.year ∧ dt.year ≤ 9999 ∧ 1 ≤ dt.month ∧ dt.month ≤ 12 ∧ 1 ≤ dt.day ∧
  dt.day ≤ daysInMonth dt.year dt.month ∧ dt.hour < 24 ∧ dt.minute < 60 ∧
  dt.second = 0 ∧ dt.milli = 0

instance (dt : Dt) : Decidable dt.roundable := by
  unfold Dt.roundable; infer_instance

/-- Roundability of a Dates value: both instants roundable. -/
def Dates.roundable (d : Dates) : Prop :=
  d.start.roundable ∧ (match d.end_ with | some e => e.roundable | none => True)

instance (d : Dates) : Decidable d.roundable := by
  unfold Dates.roundable; cases d.end_ <;> infer_instance

mutual

theorem transform_eq_spec : ∀ (n : Node) (o s : Rat), n.transform_iter o s = transformSpec n o s
  | .mk c _ _ _ off _ _ _, o, s => by
    simp only [Node.transform_iter, transformSpec]
    rw [add_comm off o]
    exact congrArg (List.cons (o, s)) (transformList_eq_spec c _ _)

theorem transformList_eq_spec :
    ∀ (l : List Value) (o s : Rat), transformList l o s = transformSpecList l o s
  | [], _, _ => rfl
  | .event _ :: rest, o, s => by
    simp only [transformList, transformSpecList]
    exact transformList_eq_spec rest o s
  | .node m :: rest, o, s => by
    simp only [transformList, transformSpecList]
    rw [transform_eq_spec m o s, transformList_eq_spec rest o s]

end

mutual

theorem transform_length_eq :
    ∀ (n : Node) (o s : Rat), (n.transform_iter o s).length = n.iter_nodes.length
  | .mk c _ _ _ _ _ _ _, o, s => by
    simp only [Node.transform_iter, Node.iter_nodes, List.length_cons]
    exact congrArg Nat.succ (transformList_length_eq c _ _)

theorem transformList_length_eq :
    ∀ (l : List Value) (o s : Rat), (transformList l o s).length = (iterNodesList l).length
  | [], _, _ => rfl
  | .event _ :: rest, o, s => by
    simp only [transformList, iterNodesList]
    exact transformList_length_eq rest o s
  | .node m :: rest, o, s => by
    simp only [transformList, iterNodesList, List.length_append]
    rw [transform_length_eq m o s, transformList_length_eq rest o s]

end

theorem transform_head (n : Node) (o s : Rat) : (n.transform_iter o s).head? = some (o, s) := by
  cases n
  simp [Node.transform_iter]

/-- C2: transform_iter(o, s) emits exactly one (offset, scale) pair per
node in preorder (as many pairs as iter_nodes yields nodes); the pair
emitted at a node is the inherited pair with which the walk entered it
(the head is the initial pair), and the walk descends into each child node
with child-visible offset (o_in + self.offset) * s_in and child-visible
scale self.y_scale * s_in, which is the content of transformSpec. -/
theorem c2_transform_iter_spec (n : Node) (o s : Rat) :
    n.transform_iter o s = transformSpec n o s ∧
    (n.transform_iter o s).length = n.iter_nodes.length ∧
    (n.transform_iter o s).head? = some (o, s) :=
  ⟨transform_eq_spec n o s, transform_length_eq n o s, transform_head n o s⟩

/-- C8: command evaluation rejects kind-mismatched targets with
NotApplicable: NameSub, Offset, Scale and LineEdit on any Event, and
DescAdd(Some s), DescSub, DescEdit and DateEdit on any Node, all return a
NotApplicable error; NameSub on an Event reports NotApplicable(Event,
NameSub) and DescAdd(Some s) on a Node reports NotApplicable(Node, ...). -/
theorem c8_eval_applicability :
    (∀ (e : Event) (v : Rat) (x : Option (Option Rat)),
      (∃ vt c, (Command.NameSub.eval_event e).1 = .error (.NotApplicable vt c)) ∧
      (∃ vt c, ((Command.Offset v).eval_event e).1 = .error (.NotApplicable vt c)) ∧
      (∃ vt c, ((Command.Scale v).eval_event e).1 = .error (.NotApplicable vt c)) ∧
      (∃ vt c, ((Command.LineEdit x).eval_event e).1 = .error (.NotApplicable vt c))) ∧
    (∀ (n : Node) (s : String) (i : Nat) (os : Option String) (d : Dates),
      (∃ vt c, ((Command.DescAdd (some s)).eval_node n).1 = .error (.NotApplicable vt c)) ∧
      (∃ vt c, ((Command.DescSub i).eval_node n).1 = .error (.NotApplicable vt c)) ∧
      (∃ vt c, ((Command.DescEdit i os).eval_node n).1 = .error (.NotApplicable vt c)) ∧
      (∃ vt c, ((Command.DateEdit d).eval_node n).1 = .error (.NotApplicable vt c))) ∧
    (∀ e : Event,
      (Command.NameSub.eval_event e).1 = .error (.NotApplicable .Event .NameSub)) ∧
    (∀ (n : Node) (s : String),
      ((Command.DescAdd (some s)).eval_node n).1 =
        .error (.NotApplicable .Node (.DescAdd (some s)))) := by
  refine ⟨fun e v x => ⟨⟨_, _, rfl⟩, ⟨_, _, rfl⟩, ⟨_, _, rfl⟩, ⟨_, _, rfl⟩⟩,
    fun n s i os d => ⟨⟨_, _, rfl⟩, ⟨_, _, rfl⟩, ⟨_, _, rfl⟩, ⟨_, _, rfl⟩⟩,
    fun e => rfl, fun n s => rfl⟩

/-- C5: the twelve concrete parses of the command-parse matrix, exactly as
the claim states them (errors carry the offending token). -/
theorem c5_command_parse_cases :
    Command.from_str "exit" = .ok .Exit ∧
    Command.from_str "line" = .ok (.LineEdit (some none)) ∧
    Command.from_str "line 5" = .ok (.LineEdit (some (some 5))) ∧
    Command.from_str "-name" = .ok .NameSub ∧
    Command.from_str "name hello world" = .ok (.NameEdit (some "hello world")) ∧
    Command.from_str "+desc Lorem Ipsum" = .ok (.DescAdd (some "Lorem Ipsum")) ∧
    Command.from_str "desc 5" = .ok (.DescEdit 5 none) ∧
    Command.from_str "booty buttcheeks" = .error (.UnknownCommand "booty" (some "buttcheeks")) ∧
    Command.from_str "exit world" = .error (.ExtraArgument "exit" "world") ∧
    Command.from_str "+line hello" = .error (.NotAFloat "hello") ∧
    Command.from_str "desc 3.14" = .error (.NotAInt "3.14") ∧
    Command.from_str "" = .error .MissingCommand := by
  decide

/-- C4: in the render pipeline the per-event stream is zipped with the
per-node depth and transform streams, so for a root holding two event
leaves only one triple is produced although there are two events — the
streams are not aligned one entry per event as the claim requires. -/
theorem c4_draw_zip_mismatch :
    c4doc.drawTriples.length = 1 ∧ c4doc.data.iter_events.length = 2 := by
  decide

theorem location_of_ne (n : Node) (s e : Int) (h : e - s ≠ 0) :
    n.location (s, e) = some (0, 1) := by
  unfold Node.location
  rw [if_neg (by exact_mod_cast h)]
  have hw : (e : Rat) - (s : Rat) ≠ 0 := by
    intro hz
    apply h
    have : ((e - s : Int) : Rat) = 0 := by push_cast; exact hz
    exact_mod_cast this
  push_cast
  rw [sub_self, zero_div, div_self hw]

theorem location_self_none (n : Node) (s : Int) : n.location (s, s) = none := by
  unfold Node.location
  rw [if_pos (by simp)]

/-- C9: with a nonzero-width global range, Node::location is the constant
some (0, 1) — it ignores the node's own events — so every Line produced by
lines() spans the whole range; with a zero-width range location is none
and no Line is produced. -/
theorem c9_location_full_span (n m : Node) (s e : Int) (l : Line)
    (hne : e - s ≠ 0) (hl : l ∈ n.lines (s, e)) :
    n.location (s, e) = some (0, 1) ∧ l.start = 0 ∧ l.end_ = 1 ∧
    m.location (s, s) = none ∧ m.lines (s, s) = [] := by
  have hempty : m.lines (s, s) = [] := by
    unfold Node.lines
    rw [List.filterMap_eq_nil_iff]
    intro a ha
    rw [List.mem_map] at ha
    obtain ⟨x, _, hx⟩ := ha
    subst hx
    simp only [id_eq, location_self_none]
    cases x.1.1.line <;> simp
  have hse : l.start = 0 ∧ l.end_ = 1 := by
    unfold Node.lines at hl
    rw [List.mem_filterMap] at hl
    obtain ⟨b, hb, hid⟩ := hl
    rw [List.mem_map] at hb
    obtain ⟨a, _, hab⟩ := hb
    simp only [location_of_ne a.1.1 s e hne] at hab
    rw [id_eq] at hid
    cases h : a.1.1.line with
    | none =>
      simp only [h] at hab
      subst hab
      exact Option.noConfusion hid
    | some int =>
      simp only [h] at hab
      subst hab
      rw [Option.some_inj] at hid
      rw [← hid]
      exact ⟨rfl, rfl⟩
  exact ⟨location_of_ne n s e hne, hse.1, hse.2, location_self_none m s, hempty⟩

theorem c9_location_full_span_witness :
    ((86400 : Int) - 0 ≠ 0) ∧
    (⟨0, 1, some 5, 0⟩ : Line) ∈ c9node.lines (0, 86400) ∧
    c9node.location (0, 86400) = some (0, 1) ∧
    (⟨0, 1, some 5, 0⟩ : Line).start = 0 ∧ (⟨0, 1, some 5, 0⟩ : Line).end_ = 1 ∧
    c9node.location (0, 0) = none ∧ c9node.lines (0, 0) = [] := by
  have hne : (86400 : Int) - 0 ≠ 0 := by decide
  have hl : (⟨0, 1, some 5, 0⟩ : Line) ∈ c9node.lines (0, 86400) := by
    have hc : c9node.lines (0, 86400) = [⟨0, 1, some 5, 0⟩] := by
      unfold Node.lines
      rw [show c9node.iter_nodes = [c9node] from rfl,
          show c9node.transform_iter 0 1 = [(0, 1)] from rfl,
          show c9node.depth = [0] from rfl]
      simp [location_of_ne c9node 0 86400 (by decide), show c9node.line = some (some 5) from rfl]
    rw [hc]
    exact List.mem_singleton.mpr rfl
  obtain ⟨h1, h2, h3, h4, h5⟩ := c9_location_full_span c9node c9node 0 86400 ⟨0, 1, some 5, 0⟩ hne hl
  exact ⟨hne, hl, h1, h2, h3, h4, h5⟩

/-- C10: evaluation is atomic on its target — whenever eval_query returns
an error the target is returned unchanged; in particular an out-of-bounds
index makes change_description and delete_description report IndexError
and leave the descriptions exactly as they were. -/
theorem c10_eval_atomic (c : Command) (q : Query) (i : Nat) (s : String) (e : Event)
    (h : ∃ err, (c.eval_query q).1 = .error err) (hi : e.descriptions.length ≤ i) :
    (c.eval_query q).2 = q ∧
    e.change_description i s = (.error (.IndexError i e.descriptions.length), e) ∧
    e.delete_description i = (.error (.IndexError i e.descriptions.length), e) := by
  refine ⟨?_, ?_, ?_⟩
  · obtain ⟨err, herr⟩ := h
    cases q with
    | node n =>
      cases c <;> simp [Command.eval_query, Command.eval_node] at herr ⊢
    | event ev =>
      cases c
      case NameEdit o =>
        cases o <;> simp [Command.eval_query, Command.eval_event] at herr ⊢
      case DescAdd o =>
        cases o <;> simp [Command.eval_query, Command.eval_event] at herr ⊢
      case DescSub j =>
        by_cases hlt : j < ev.descriptions.length <;>
          simp [Command.eval_query, Command.eval_event, Event.delete_description, hlt] at herr ⊢
      case DescEdit j o =>
        cases o with
        | none => simp [Command.eval_query, Command.eval_event] at herr ⊢
        | some str =>
          by_cases hlt : j < ev.descriptions.length <;>
            simp [Command.eval_query, Command.eval_event, Event.change_description, hlt] at herr ⊢
      all_goals simp [Command.eval_query, Command.eval_event] at herr ⊢
  · unfold Event.change_description
    rw [if_neg (by omega)]
  · unfold Event.delete_description
    rw [if_neg (by omega)]

theorem c10_eval_atomic_witness :
    (∃ err, ((Command.DescSub 5).eval_query (Query.event exEventA)).1 = .error err) ∧
    exEventA.descriptions.length ≤ 5 ∧
    ((Command.DescSub 5).eval_query (Query.event exEventA)).2 = Query.event exEventA ∧
    exEventA.change_description 5 "x" =
      (.error (.IndexError 5 exEventA.descriptions.length), exEventA) ∧
    exEventA.delete_description 5 =
      (.error (.IndexError 5 exEventA.descriptions.length), exEventA) := by
  have h : ∃ err, ((Command.DescSub 5).eval_query (Query.event exEventA)).1 = .error err :=
    ⟨.IndexError 5 0, rfl⟩
  have hi : exEventA.descriptions.length ≤ 5 := by decide
  obtain ⟨h1, h2, h3⟩ := c10_eval_atomic (Command.DescSub 5) (Query.event exEventA) 5 "x" exEventA h hi
  exact ⟨h, hi, h1, h2, h3⟩

theorem usizeSub1_zero : usizeSub1 0 = USIZE - 1 := by decide

theorem usizeSub1_of_pos (i : Nat) (h1 : 1 ≤ i) (h2 : i < USIZE) : usizeSub1 i = i - 1 := by
  unfold usizeSub1
  have hU : 0 < USIZE := by decide
  have : i + (USIZE - 1) = (i - 1) + 1 * USIZE := by omega
  rw [this, Nat.add_mul_mod_self_right]
  exact Nat.mod_eq_of_lt (by omega)

theorem bounded_children (n : Node) (h : n.bounded = true) :
    n.children.length < USIZE ∧ boundedList n.children = true := by
  cases n with
  | mk c nm so co off ys ln gr =>
    unfold Node.bounded at h
    rw [Bool.and_eq_true, decide_eq_true_eq] at h
    exact h

theorem boundedList_get (l : List Value) (j : Nat) (m : Node)
    (hb : boundedList l = true) (hg : l.get? j = some (.node m)) : m.bounded = true := by
  induction l generalizing j with
  | nil => simp at hg
  | cons v rest ih =>
    cases v with
    | event e =>
      cases j with
      | zero => simp at hg
      | succ j2 =>
        unfold boundedList at hb
        exact ih j2 hb (by simpa using hg)
    | node m2 =>
      unfold boundedList at hb
      rw [Bool.and_eq_true] at hb
      cases j with
      | zero =>
        simp at hg
        rw [← hg]
        exact hb.1
      | succ j2 => exact ih j2 hb.2 (by simpa using hg)

/-- C1: relative to the specification-side resolution targetQ (empty path
addresses the node itself; each step a 1-based in-bounds index; every
non-final step a Node, the final step a Node or an Event), Node::query
succeeds exactly on the valid paths, returning the Query value that
targetQ names (Query.node for a node, Query.event for an event leaf), and
fails with a PathFail on every invalid path — including an index of 0,
whose wrapped decrement falls outside any Vec. -/
theorem c1_query_path_spec (p : List Nat) (n : Node) (q : Query)
    (hb : n.bounded = true) (hp : ∀ i ∈ p, i < USIZE) :
    n.query [] = .ok (.node n) ∧
    (targetQ n p = some q → n.query p = .ok q) ∧
    (targetQ n p = none → ∃ pf, n.query p = .error pf) := by
  refine ⟨rfl, ?_⟩
  induction p generalizing n with
  | nil =>
    refine ⟨fun h => ?_, fun h => ?_⟩
    · unfold targetQ at h
      rw [Option.some_inj] at h
      rw [← h]
      rfl
    · exact Option.noConfusion h
  | cons i rest ih =>
    have hiU : i < USIZE := hp i (by simp)
    have hrest : ∀ j ∈ rest, j < USIZE := fun j hj => hp j (by simp [hj])
    by_cases hi0 : i = 0
    · subst hi0
      have hq : n.query (0 :: rest) = .error ⟨0 :: rest, (0 :: rest).length⟩ := by
        unfold Node.query
        rw [usizeSub1_zero,
          List.get?_eq_none.mpr (by have := (bounded_children n hb).1; omega)]
      refine ⟨fun h => ?_, fun _ => ⟨_, hq⟩⟩
      · unfold targetQ at h
        rw [if_pos rfl] at h
        exact Option.noConfusion h
    · have h1 : 1 ≤ i := by omega
      have hsub : usizeSub1 i = i - 1 := usizeSub1_of_pos i h1 hiU
      refine ⟨fun h => ?_, fun h => ?_⟩
      · unfold targetQ at h
        rw [if_neg hi0] at h
        unfold Node.query
        rw [hsub]
        cases hg : n.children.get? (i - 1) with
        | none => rw [hg] at h; exact Option.noConfusion h
        | some v =>
          rw [hg] at h
          cases v with
          | node m =>
            have hbm : m.bounded = true :=
              boundedList_get n.children (i - 1) m (bounded_children n hb).2 hg
            exact (ih m hbm hrest).1 h
          | event e =>
            cases rest with
            | nil => simp at h; rw [← h]; rfl
            | cons r rs => exact Option.noConfusion h
      · unfold targetQ at h
        rw [if_neg hi0] at h
        unfold Node.query
        rw [hsub]
        cases hg : n.children.get? (i - 1) with
        | none => exact ⟨_, rfl⟩
        | some v =>
          rw [hg] at h
          cases v with
          | node m =>
            have hbm : m.bounded = true :=
              boundedList_get n.children (i - 1) m (bounded_children n hb).2 hg
            exact (ih m hbm hrest).2 h
          | event e =>
            cases rest with
            | nil => exact Option.noConfusion h
            | cons r rs => exact ⟨_, rfl⟩

theorem c1_query_path_spec_witness :
    c1tree.bounded = true ∧ (∀ i ∈ [2, 1], i < USIZE) ∧
    targetQ c1tree [2, 1] = some (Query.event exEventB) ∧
    c1tree.query [2, 1] = .ok (Query.event exEventB) ∧
    targetQ c1tree [3] = none ∧ (∃ pf, c1tree.query [3] = .error pf) := by
  have hb : c1tree.bounded = true := by decide
  have hp : ∀ i ∈ [2, 1], i < USIZE := by decide
  have hp2 : ∀ i ∈ [3], i < USIZE := by decide
  refine ⟨hb, hp, rfl, (c1_query_path_spec [2, 1] c1tree (Query.event exEventB) hb hp).2.1 rfl,
    rfl, (c1_query_path_spec [3] c1tree (Query.event exEventB) hb hp2).2.2 rfl⟩

/-- C6: expand_range behaves exactly as the spec's min/max description for
any date whose start timestamp is representable in i64 (as every chrono
timestamp is) — an absent end neither tightens the low bound nor raises
the high bound; range() is the fold of expand_range over the preorder
event datetimes from (i64::MAX, i64::MIN), and a tree without events folds
over nothing and keeps (i64::MAX, i64::MIN). -/
theorem c6_range_fold (n : Node) (d : Dates) (lo hi : Int)
    (h1 : i64MIN ≤ d.stamps.1) (h2 : d.stamps.1 ≤ i64MAX) :
    d.expand_range (lo, hi) = expandSpec d (lo, hi) ∧
    n.range = (n.iter_events.map (·.datetime)).foldl
      (fun range dt => dt.expand_range range) (i64MAX, i64MIN) ∧
    (n.iter_events = [] → n.range = (i64MAX, i64MIN)) := by
  refine ⟨?_, rfl, fun h => ?_⟩
  · unfold Dates.expand_range expandSpec
    cases he : d.stamps.2 with
    | none =>
      simp only [he, Option.getD]
      rw [Prod.mk.injEq]
      rw [show i64MIN = -(2 ^ 63) from rfl] at h1
      rw [show i64MAX = 2 ^ 63 - 1 from rfl] at h2
      rw [show i64MAX = 2 ^ 63 - 1 from rfl, show i64MIN = -(2 ^ 63) from rfl]
      constructor <;> omega
    | some e2 =>
      simp only [he, Option.getD]
      rw [Prod.mk.injEq]
      constructor <;> omega
  · unfold Node.range
    rw [h]
    rfl

theorem c6_range_fold_witness :
    i64MIN ≤ exDates1.stamps.1 ∧ exDates1.stamps.1 ≤ i64MAX ∧
    exDates1.expand_range (3, 7) = expandSpec exDates1 (3, 7) ∧
    (Node.from_vec []).range = (i64MAX, i64MIN) := by
  have h1 : i64MIN ≤ exDates1.stamps.1 := by decide
  have h2 : exDates1.stamps.1 ≤ i64MAX := by decide
  obtain ⟨ha, _, hc⟩ := c6_range_fold (Node.from_vec []) exDates1 3 7 h1 h2
  exact ⟨h1, h2, ha, hc rfl⟩

theorem hmGet_cons (k0 : String) (v0 : Colors) (rest : SchemeMap) (k : String) :
    hmGet ((k0, v0) :: rest) k = if k0 = k then some v0 else hmGet rest k := by
  unfold hmGet
  rw [List.find?_cons]
  by_cases h : k0 = k <;> simp [h]

theorem hmGet_eq_none_of_not_mem (m : SchemeMap) (k : String)
    (h : k ∉ m.map Prod.fst) : hmGet m k = none := by
  induction m with
  | nil => rfl
  | cons kv rest ih =>
    rw [show kv = (kv.1, kv.2) from rfl, hmGet_cons,
      if_neg (by simp at h; exact fun hh => h.1 hh.symm), ih (by simp at h ⊢; exact h.2)]

theorem hmGet_map_set (m : SchemeMap) (k : String) (v : Colors) (k2 : String) :
    hmGet (m.map (fun kv => if kv.1 = k then (k, v) else kv)) k2 =
      if k2 = k then (if m.any (fun kv => kv.1 = k) then some v else none)
      else hmGet m k2 := by
  induction m with
  | nil => by_cases h : k2 = k <;> simp [h, hmGet]
  | cons kv rest ih =>
    obtain ⟨k0, v0⟩ := kv
    rw [List.map_cons, List.any_cons]
    by_cases hk0 : k0 = k <;> by_cases hk2 : k2 = k
    · subst hk0 hk2
      simp [hmGet_cons, ih]
    · subst hk0
      simp only [if_pos rfl]
      rw [hmGet_cons, ih, hmGet_cons]
      have hne : ¬ k0 = k2 := fun hh => hk2 hh.symm
      simp [hk2, hne]
    · subst hk2
      simp only [if_neg (by simpa using hk0), decide_eq_true_eq]
      rw [hmGet_cons, if_neg hk0, ih]
      rw [decide_eq_false hk0, Bool.false_or]
      simp
    · simp only [if_neg (by simpa using hk0)]
      rw [hmGet_cons, hmGet_cons, ih]
      simp [hk2]

theorem hmGet_append_new (m : SchemeMap) (k : String) (v : Colors) (k2 : String)
    (h : m.any (fun kv => kv.1 = k) = false) :
    hmGet (m ++ [(k, v)]) k2 = if k2 = k then some v else hmGet m k2 := by
  induction m with
  | nil =>
    rw [List.nil_append, hmGet_cons]
    by_cases hk2 : k2 = k
    · rw [if_pos hk2.symm, if_pos hk2]
    · rw [if_neg (fun hh => hk2 hh.symm), if_neg hk2]
  | cons kv rest ih =>
    obtain ⟨k0, v0⟩ := kv
    rw [List.any_cons, Bool.or_eq_false_iff] at h
    have hk0 : ¬ k0 = k := by simpa using h.1
    rw [List.cons_append, hmGet_cons, hmGet_cons]
    by_cases hk02 : k0 = k2
    · have hk2 : ¬ k2 = k := fun hh => hk0 (hk02.trans hh)
      rw [if_pos hk02, if_neg hk2, if_pos hk02]
    · rw [if_neg hk02, if_neg hk02, ih h.2]

theorem hmGet_insert (m : SchemeMap) (k : String) (v : Colors) (k2 : String) :
    hmGet (hmInsert m k v) k2 = if k2 = k then some v else hmGet m k2 := by
  unfold hmInsert
  by_cases hany : List.any m (fun kv => kv.1 = k)
  · rw [if_pos hany, hmGet_map_set, hany]
    by_cases hk2 : k2 = k <;> simp [hk2]
  · rw [if_neg hany, hmGet_append_new m k v k2 (by rwa [Bool.not_eq_true] at hany)]

theorem hmGet_foldl_insert (entries : List (String × Colors)) (acc : SchemeMap) (k : String)
    (hnd : (entries.map Prod.fst).Nodup) :
    hmGet (entries.foldl (fun m kv => hmInsert m kv.1 kv.2) acc) k =
      laterWins (hmGet acc k) (hmGet entries k) := by
  induction entries generalizing acc with
  | nil => rfl
  | cons kv rest ih =>
    obtain ⟨k0, v0⟩ := kv
    rw [List.map_cons, List.nodup_cons] at hnd
    rw [List.foldl_cons, ih (hmInsert acc k0 v0) hnd.2, hmGet_cons]
    by_cases hk : k0 = k
    · subst hk
      rw [if_pos rfl, hmGet_eq_none_of_not_mem rest k0 hnd.1, hmGet_insert,
        if_pos rfl]
      rfl
    · rw [if_neg hk, hmGet_insert, if_neg (fun hh => hk hh.symm)]

theorem catenate_x (l : List SagaDoc) (acc : SagaDoc) :
    (l.foldl catStep acc).x = l.foldl (fun a doc => max a doc.x) acc.x := by
  induction l generalizing acc with
  | nil => rfl
  | cons d rest ih => rw [List.foldl_cons, List.foldl_cons, ih]; rfl

theorem catenate_y (l : List SagaDoc) (acc : SagaDoc) :
    (l.foldl catStep acc).y = l.foldl (fun a doc => max a doc.y) acc.y := by
  induction l generalizing acc with
  | nil => rfl
  | cons d rest ih => rw [List.foldl_cons, List.foldl_cons, ih]; rfl

theorem catenate_padding (l : List SagaDoc) (acc : SagaDoc) :
    (l.foldl catStep acc).padding = l.foldl (fun a doc => max a doc.padding) acc.padding := by
  induction l generalizing acc with
  | nil => rfl
  | cons d rest ih => rw [List.foldl_cons, List.foldl_cons, ih]; rfl

theorem catenate_data (l : List SagaDoc) (acc : SagaDoc) :
    (l.foldl catStep acc).data = acc.data := by
  induction l generalizing acc with
  | nil => rfl
  | cons d rest ih => rw [List.foldl_cons, ih]; rfl

theorem catenate_schemes (l : List SagaDoc) (acc : SagaDoc) (k : String)
    (h : ∀ doc ∈ l, (doc.color_schemes.map Prod.fst).Nodup) :
    hmGet (l.foldl catStep acc).color_schemes k =
      l.foldl (fun r doc => laterWins r (hmGet doc.color_schemes k))
        (hmGet acc.color_schemes k) := by
  induction l generalizing acc with
  | nil => rfl
  | cons d rest ih =>
    rw [List.foldl_cons, List.foldl_cons,
      ih (catStep acc d) (fun doc hd => h doc (by simp [hd]))]
    have hs : (catStep acc d).color_schemes =
        d.color_schemes.foldl (fun m kv => hmInsert m kv.1 kv.2) acc.color_schemes := rfl
    rw [hs, hmGet_foldl_insert d.color_schemes acc.color_schemes k (h d (by simp))]

/-- C3 counterexample: for the single-document input [c3doc] the claim
demands x = c3doc.x and root children equal to c3doc's root children, but
catenate keeps the blank document's 1920 and leaves the root empty. -/
theorem c3_catenate_counterexample :
    ¬ ((SagaDoc.catenate [c3doc]).x = c3doc.x ∧
       (SagaDoc.catenate [c3doc]).data.children = c3doc.data.children) := by
  intro h
  have h2 := h.2
  rw [show (SagaDoc.catenate [c3doc]).data.children = [] from rfl,
    show c3doc.data.children = [Value.event exEventA] from rfl] at h2
  exact List.noConfusion h2

/-- C3 (amended): catenate takes the component maxima seeded with the
blank document's defaults (1920, 1080, 0) rather than over the inputs
alone, builds the union of the inputs' color scheme maps with later inputs
overriding earlier ones on key collision, and leaves the resulting root
node's children empty — the concatenation of the inputs' children is not
performed. -/
theorem c3_catenate_amended (l : List SagaDoc) (k : String)
    (h : ∀ doc ∈ l, (doc.color_schemes.map Prod.fst).Nodup) :
    (SagaDoc.catenate l).x = l.foldl (fun a doc => max a doc.x) 1920 ∧
    (SagaDoc.catenate l).y = l.foldl (fun a doc => max a doc.y) 1080 ∧
    (SagaDoc.catenate l).padding = l.foldl (fun a doc => max a doc.padding) 0 ∧
    (SagaDoc.catenate l).data.children = [] ∧
    hmGet (SagaDoc.catenate l).color_schemes k =
      l.foldl (fun r doc => laterWins r (hmGet doc.color_schemes k)) none := by
  unfold SagaDoc.catenate
  refine ⟨catenate_x l _, catenate_y l _, catenate_padding l _, ?_, ?_⟩
  · rw [catenate_data l _]
    rfl
  · rw [catenate_schemes l _ k h]
    rfl

theorem c3_catenate_amended_witness :
    (∀ doc ∈ [c3doc], (doc.color_schemes.map Prod.fst).Nodup) ∧
    (SagaDoc.catenate [c3doc]).x = [c3doc].foldl (fun a doc => max a doc.x) 1920 ∧
    (SagaDoc.catenate [c3doc]).data.children = [] ∧
    hmGet (SagaDoc.catenate [c3doc]).color_schemes "a" =
      [c3doc].foldl (fun r doc => laterWins r (hmGet doc.color_schemes "a")) none := by
  have h : ∀ doc ∈ [c3doc], (doc.color_schemes.map Prod.fst).Nodup := by
    intro doc hd
    rw [List.mem_singleton] at hd
    subst hd
    exact List.nodup_nil
  obtain ⟨h1, _, _, h4, h5⟩ := c3_catenate_amended [c3doc] "a" h
  exact ⟨h, h1, h4, h5⟩

theorem digitChar_toNat (a : Nat) (h : a < 10) : (digitChar a).toNat = 48 + a := by
  interval_cases a <;> decide

theorem isDig_digitChar (a : Nat) (h : a < 10) : isDig (digitChar a) = true := by
  unfold isDig
  rw [digitChar_toNat a h]
  simp
  omega

theorem digVal_digitChar (a : Nat) (h : a < 10) : digVal (digitChar a) = a := by
  unfold digVal
  rw [digitChar_toNat a h]
  omega

theorem isWsChar_digitChar (a : Nat) (h : a < 10) : isWsChar (digitChar a) = false := by
  interval_cases a <;> decide

theorem dash_ne_digitChar (a : Nat) (h : a < 10) : ('-' : Char) ≠ digitChar a := by
  interval_cases a <;> decide

theorem digitChar_ne_dash (a : Nat) (h : a < 10) : digitChar a ≠ ('-' : Char) := by
  interval_cases a <;> decide

theorem digitChar_ne_plus (a : Nat) (h : a < 10) : digitChar a ≠ ('+' : Char) := by
  interval_cases a <;> decide

theorem expectChar_cons_self (c : Char) (r : List Char) : expectChar c (c :: r) = some r := by
  simp [expectChar]

theorem parseNum2_pad2 (n : Nat) (h : n < 100) (r : List Char) :
    parseNum 2 (pad2c n ++ r) = some (n, r) := by
  have h1 : n / 10 < 10 := by omega
  have h2 : n % 10 < 10 := by omega
  unfold pad2c parseNum
  simp only [List.cons_append, List.nil_append]
  rw [if_pos (isDig_digitChar _ h1)]
  unfold takeDigits
  rw [if_pos (isDig_digitChar _ h2)]
  unfold takeDigits
  rw [digVal_digitChar _ h1, digVal_digitChar _ h2]
  have : n / 10 * 10 + n % 10 = n := by omega
  rw [this]

theorem parseNum4_pad4 (n : Nat) (h : n < 10000) (r : List Char) :
    parseNum 4 (pad4c n ++ r) = some (n, r) := by
  have h1 : n / 1000 < 10 := by omega
  have h2 : n / 100 % 10 < 10 := by omega
  have h3 : n / 10 % 10 < 10 := by omega
  have h4 : n % 10 < 10 := by omega
  unfold pad4c parseNum
  simp only [List.cons_append, List.nil_append]
  rw [if_pos (isDig_digitChar _ h1)]
  unfold takeDigits
  rw [if_pos (isDig_digitChar _ h2)]
  unfold takeDigits
  rw [if_pos (isDig_digitChar _ h3)]
  unfold takeDigits
  rw [if_pos (isDig_digitChar _ h4)]
  unfold takeDigits
  rw [digVal_digitChar _ h1, digVal_digitChar _ h2, digVal_digitChar _ h3, digVal_digitChar _ h4]
  have : ((n / 1000 * 10 + n / 100 % 10) * 10 + n / 10 % 10) * 10 + n % 10 = n := by omega
  rw [this]

theorem parseYearNum_pad4 (n : Nat) (h : n < 10000) (r : List Char) :
    parseYearNum (pad4c n ++ r) = some ((n : Int), r) := by
  have h1 : n / 1000 < 10 := by omega
  have hp := parseNum4_pad4 n h r
  unfold pad4c at hp ⊢
  simp only [List.cons_append, List.nil_append] at hp ⊢
  unfold parseYearNum
  simp only [if_neg (digitChar_ne_dash _ h1), if_neg (digitChar_ne_plus _ h1), hp]
  rfl

theorem dropWs_space_pad2 (a : Nat) (h : a < 100) (r : List Char) :
    dropWs (' ' :: (pad2c a ++ r)) = pad2c a ++ r := by
  have h1 : a / 10 < 10 := by omega
  unfold dropWs pad2c
  simp only [List.cons_append]
  rw [List.dropWhile_cons, if_pos (by decide), List.dropWhile_cons,
    if_neg (by rw [isWsChar_digitChar _ h1]; simp)]

theorem daysInMonth_le (y : Int) (m : Nat) : daysInMonth y m ≤ 31 := by
  unfold daysInMonth
  split
  · split <;> omega
  · split <;> omega

theorem parseDt_fmt (dt : Dt) (h : dt.roundable) :
    parseDtChars (fmtDt dt) = some ⟨dt.year, dt.month, dt.day, dt.hour, dt.minute, 0, 0⟩ := by
  obtain ⟨hy0, hy9, hm1, hm12, hd1, hdm, hh, hmin, _, _⟩ := h
  have hyc : yearChars dt.year = pad4c dt.year.toNat := by
    unfold yearChars
    rw [if_pos ⟨hy0, hy9⟩]
  have hday : dt.day < 100 := by have := daysInMonth_le dt.year dt.month; omega
  have hmon : dt.month < 100 := by omega
  have hhour : dt.hour < 100 := by omega
  have hmin2 : dt.minute < 100 := by omega
  have hy4 : dt.year.toNat < 10000 := by omega
  have hytn : ((dt.year.toNat : Int)) = dt.year := Int.toNat_of_nonneg hy0
  unfold fmtDt
  rw [hyc]
  unfold parseDtChars
  rw [parseNum2_pad2 dt.day hday]
  simp only
  rw [expectChar_cons_self]
  simp only
  rw [parseNum2_pad2 dt.month hmon]
  simp only
  rw [expectChar_cons_self]
  simp only
  rw [parseYearNum_pad4 dt.year.toNat hy4]
  simp only
  rw [dropWs_space_pad2 dt.hour hhour]
  rw [parseNum2_pad2 dt.hour hhour]
  simp only
  rw [expectChar_cons_self]
  simp only
  rw [show pad2c dt.minute = pad2c dt.minute ++ [] from (List.append_nil _).symm,
    parseNum2_pad2 dt.minute hmin2]
  simp only
  rw [hytn]
  rw [if_pos ⟨trivial, hm1, hm12, hd1, hdm, hh, hmin, by omega, by omega⟩]

theorem fmtDt_shape (dt : Dt) (hy : 0 ≤ dt.year ∧ dt.year ≤ 9999) :
    fmtDt dt = digitChar (dt.day / 10) ::
      ([digitChar (dt.day % 10), '/', digitChar (dt.month / 10), digitChar (dt.month % 10), '/',
        digitChar (dt.year.toNat / 1000), digitChar (dt.year.toNat / 100 % 10),
        digitChar (dt.year.toNat / 10 % 10), digitChar (dt.year.toNat % 10), ' ',
        digitChar (dt.hour / 10), digitChar (dt.hour % 10), ':', digitChar (dt.minute / 10)]
        ++ [digitChar (dt.minute % 10)]) := by
  unfold fmtDt yearChars
  rw [if_pos hy]
  unfold pad2c pad4c
  simp

theorem trim_mid_append_space (c0 c1 : Char) (mid : List Char)
    (h0 : isWsChar c0 = false) (h1 : isWsChar c1 = false) :
    trimChars ((c0 :: mid ++ [c1]) ++ [' ']) = c0 :: mid ++ [c1] := by
  have hsp : isWsChar ' ' = true := by decide
  unfold trimChars
  simp [List.dropWhile_cons, h0, h1, hsp]

theorem trim_space_cons (c0 c1 : Char) (mid : List Char)
    (h0 : isWsChar c0 = false) (h1 : isWsChar c1 = false) :
    trimChars (' ' :: c0 :: mid ++ [c1]) = c0 :: mid ++ [c1] := by
  have hsp : isWsChar ' ' = true := by decide
  unfold trimChars
  simp [List.dropWhile_cons, h0, h1, hsp]

theorem dash_not_mem_pad2 (a : Nat) (h : a < 100) : ('-' : Char) ∉ pad2c a := by
  intro hm
  rcases (by simpa [pad2c] using hm : ('-' : Char) = digitChar (a / 10) ∨ ('-' : Char) = digitChar (a % 10)) with h1 | h1
  · exact dash_ne_digitChar (a / 10) (by omega) h1
  · exact dash_ne_digitChar (a % 10) (by omega) h1

theorem dash_not_mem_pad4 (a : Nat) (h : a < 10000) : ('-' : Char) ∉ pad4c a := by
  intro hm
  rcases (by simpa [pad4c] using hm :
      ('-' : Char) = digitChar (a / 1000) ∨ ('-' : Char) = digitChar (a / 100 % 10) ∨
      ('-' : Char) = digitChar (a / 10 % 10) ∨ ('-' : Char) = digitChar (a % 10)) with h1 | h1 | h1 | h1
  · exact dash_ne_digitChar _ (by omega) h1
  · exact dash_ne_digitChar _ (by omega) h1
  · exact dash_ne_digitChar _ (by omega) h1
  · exact dash_ne_digitChar _ (by omega) h1

theorem dash_not_mem_fmtDt (dt : Dt) (h : dt.roundable) : ('-' : Char) ∉ fmtDt dt := by
  obtain ⟨hy0, hy9, hm1, hm12, hd1, hdm, hh, hmin, _, _⟩ := h
  have hday : dt.day < 100 := by have := daysInMonth_le dt.year dt.month; omega
  have hyc : yearChars dt.year = pad4c dt.year.toNat := by
    unfold yearChars
    rw [if_pos ⟨hy0, hy9⟩]
  unfold fmtDt
  rw [hyc]
  intro hm
  simp only [List.mem_append, List.mem_cons, List.not_mem_nil, or_false] at hm
  rcases hm with hm | hm | hm | hm | hm | hm | hm | hm | hm
  · exact dash_not_mem_pad2 dt.day hday hm
  · exact absurd hm (by decide)
  · exact dash_not_mem_pad2 dt.month (by omega) hm
  · exact absurd hm (by decide)
  · exact dash_not_mem_pad4 dt.year.toNat (by omega) hm
  · exact absurd hm (by decide)
  · exact dash_not_mem_pad2 dt.hour (by omega) hm
  · exact absurd hm (by decide)
  · exact dash_not_mem_pad2 dt.minute (by omega) hm

theorem splitFirstDash_of_not_mem (cs : List Char) (h : ('-' : Char) ∉ cs) :
    splitFirstDash cs = none := by
  induction cs with
  | nil => rfl
  | cons c t ih =>
    unfold splitFirstDash
    rw [if_neg (by intro hh; exact h (by simp [hh])), ih (by intro hh; exact h (by simp [hh]))]
    rfl

theorem splitFirstDash_append (A B : List Char) (h : ('-' : Char) ∉ A) :
    splitFirstDash (A ++ '-' :: B) = some (A, B) := by
  induction A with
  | nil => simp [splitFirstDash]
  | cons c t ih =>
    rw [List.cons_append]
    unfold splitFirstDash
    rw [if_neg (by intro hh; exact h (by simp [hh])), ih (by intro hh; exact h (by simp [hh]))]
    rfl

theorem trim_fmtDt_right (dt : Dt) (h : dt.roundable) :
    trimChars (fmtDt dt ++ [' ']) = fmtDt dt := by
  have hs := fmtDt_shape dt ⟨h.1, h.2.1⟩
  obtain ⟨_, _, _, _, _, hdm, _, _, _, _⟩ := h
  have hday : dt.day < 100 := by have := daysInMonth_le dt.year dt.month; omega
  rw [hs]
  exact trim_mid_append_space _ _ _ (isWsChar_digitChar _ (by omega))
    (isWsChar_digitChar _ (by omega))

theorem trim_fmtDt_left (dt : Dt) (h : dt.roundable) :
    trimChars (' ' :: fmtDt dt) = fmtDt dt := by
  have hs := fmtDt_shape dt ⟨h.1, h.2.1⟩
  obtain ⟨_, _, _, _, _, hdm, _, _, _, _⟩ := h
  have hday : dt.day < 100 := by have := daysInMonth_le dt.year dt.month; omega
  rw [hs]
  exact trim_space_cons _ _ _ (isWsChar_digitChar _ (by omega))
    (isWsChar_digitChar _ (by omega))

theorem parseDt_fmt_self (dt : Dt) (h : dt.roundable) :
    parseDtChars (fmtDt dt) = some dt := by
  rw [parseDt_fmt dt h]
  obtain ⟨_, _, _, _, _, _, _, _, hsec, hmil⟩ := h
  cases dt
  simp_all

/-- C7 (amended): parse(format(d)) recovers d exactly for the Dates values
whose instants are minute-aligned with four-digit-formattable years (the
roundable predicate); Dates::from can produce sub-minute instants, for
which the round trip fails. -/
theorem c7_roundtrip_amended (d : Dates) (h : d.roundable) :
    Dates.from_str (Dates.format d) = .ok d := by
  obtain ⟨start, end_⟩ := d
  obtain ⟨h1, h2⟩ := h
  unfold Dates.format Dates.from_str
  rw [show (String.mk (fmtDates ⟨start, end_⟩)).data = fmtDates ⟨start, end_⟩ from rfl]
  cases end_ with
  | none =>
    unfold fmtDates
    simp only [List.append_nil]
    rw [splitFirstDash_of_not_mem _ (dash_not_mem_fmtDt start h1)]
    rw [parseDt_fmt_self start h1]
  | some e =>
    have he : e.roundable := h2
    unfold fmtDates
    rw [show fmtDt start ++ ' ' :: '-' :: ' ' :: fmtDt e =
      (fmtDt start ++ [' ']) ++ '-' :: (' ' :: fmtDt e) by simp]
    rw [splitFirstDash_append _ _ (by
      intro hm
      rcases List.mem_append.mp hm with hm2 | hm2
      · exact dash_not_mem_fmtDt start h1 hm2
      · exact absurd hm2 (by decide))]
    simp only [trim_fmtDt_right start h1, trim_fmtDt_left e he,
      parseDt_fmt_self start h1, parseDt_fmt_self e he]

/-- C7 counterexample: Dates::from((30000, 60000)) — a producible value —
carries 30 seconds on its start instant; the canonical format drops the
seconds, so parsing the formatted string yields a different value. -/
theorem c7_roundtrip_counterexample :
    Dates.fromRange (30000, 60000) = some c7bad ∧
    Dates.from_str (Dates.format c7bad) ≠ Except.ok c7bad := by
  constructor
  · decide
  · decide

theorem c7_roundtrip_amended_witness :
    c7good.roundable ∧ Dates.from_str (Dates.format c7good) = .ok c7good := by
  have h : c7good.roundable := by decide
  exact ⟨h, c7_roundtrip_amended c7good h⟩
